import Mathlib

/-
  Verification development for the ORC one-definition-rule checker.

  The definitions below are shallow embeddings of the C++ sources:
    src/orc.cpp, src/parse_file.cpp, src/string_pool.cpp,
    include/orc/dwarf_structs.hpp, include/orc/parse_file.hpp.

  Machine integers are modelled as Nat (unsigned) or Int (signed values and
  address arithmetic) with explicit reductions modulo 2 ^ 32 where 32-bit
  overflow matters.  Interned strings (pool_string handles) are modelled by
  arena slots and their stored 64-bit content hash; pointer-chained
  structures are modelled as lists.  A failing debug assertion is modelled
  by an `Option` result being `none`.
-/

namespace Orc

/-! ## Byte reader `freader` (include/orc/parse_file.hpp, src/parse_file.cpp) -/

/- The reader holds three pointers into the mapped file: `f` the window base,
   `p` the read cursor, `l` the window limit.  Addresses are modelled as
   integers so that pointer differences are exact. -/
structure freader where
  f : Int
  p : Int
  l : Int
deriving DecidableEq

/- `freader::tellg`: `_p - _f`. -/
def freader.tellg (r : freader) : Int := r.p - r.f

/- `freader::size`: `_l - _p`. -/
def freader.size (r : freader) : Int := r.l - r.p

/- `freader::seekg(offset, std::ios::end)`: `_p = _f + (size() - offset)`. -/
def freader.seekgEnd (r : freader) (offset : Int) : freader :=
  { r with p := r.f + (r.size - offset) }

/- `freader::subbuf(end_pos)` (src/parse_file.cpp lines 240-251).  The result
   is built over a fresh mapping whose base address `newbase` is whatever the
   new mmap returns; the source assigns
     pos = _p - _f; new_size = end_pos - pos;
     result._f = result._filebuf.get();      // newbase
     result._p = _f - pos;                   // parent `_f`!
     result._l = _f + new_size;              // parent `_f`!
-/
def freader.subbuf (r : freader) (endPos : Int) (newbase : Int) : freader :=
  { f := newbase
    p := r.f - (r.p - r.f)
    l := r.f + (endPos - (r.p - r.f)) }

/-! ## `object_ancestry` (include/orc/dwarf_structs.hpp lines 279-314) -/

/- A pool_string handle is modelled as `Option Nat` (arena slot), the default
   null handle being `none`.  The backing `std::array<pool_string, 5>` is
   modelled as a total function on indices; the embedded operations only read
   indices below 5. -/
structure object_ancestry where
  ancestors : Nat → Option Nat
  count : Nat

def object_ancestry.empty : object_ancestry := ⟨fun _ => none, 0⟩

/- `object_ancestry::emplace_back`: asserts `(_count + 1) < _ancestors.size()`
   (the array size is 5), then `_ancestors[_count++] = ancestor`. -/
def object_ancestry.emplace_back (a : object_ancestry) (x : Option Nat) :
    Option object_ancestry :=
  if a.count + 1 < 5 then
    some ⟨Function.update a.ancestors a.count x, a.count + 1⟩
  else none

/- `object_ancestry::back`: asserts `_count`, then returns `_ancestors[_count]`. -/
def object_ancestry.back (a : object_ancestry) : Option (Option Nat) :=
  if a.count ≠ 0 then some (a.ancestors a.count) else none

/- A sequence of emplace_back calls starting from a given state; `none` as soon
   as one call's assertion fails. -/
def emplaceList (a : object_ancestry) (l : List (Option Nat)) :
    Option object_ancestry :=
  l.foldlM object_ancestry.emplace_back a

theorem emplaceList_spec : ∀ (l : List (Option Nat)) (a : object_ancestry),
    a.count + l.length ≤ 4 →
    ∃ b, emplaceList a l = some b ∧ b.count = a.count + l.length ∧
      (∀ j, (hj : j < l.length) → b.ancestors (a.count + j) = l.get ⟨j, hj⟩) ∧
      (∀ i, i < a.count ∨ a.count + l.length ≤ i → b.ancestors i = a.ancestors i) := by
  intro l
  induction l with
  | nil =>
    intro a _
    exact ⟨a, rfl, by simp, by simp, fun i _ => rfl⟩
  | cons x xs ih =>
    intro a hlen
    have hguard : a.count + 1 < 5 := by simp at hlen; omega
    set a' : object_ancestry := ⟨Function.update a.ancestors a.count x, a.count + 1⟩ with ha'
    have hstep : emplaceList a (x :: xs) = emplaceList a' xs := by
      simp [emplaceList, List.foldlM_cons, object_ancestry.emplace_back, hguard]
    have hlen' : a'.count + xs.length ≤ 4 := by simp [ha']; simp at hlen; omega
    obtain ⟨b, hb, hbc, hbj, hbo⟩ := ih a' hlen'
    refine ⟨b, by rw [hstep]; exact hb, by simp [hbc, ha']; omega, ?_, ?_⟩
    · intro j hj
      cases j with
      | zero =>
        have : b.ancestors a.count = a'.ancestors a.count :=
          hbo a.count (Or.inl (by simp [ha']))
        simp [ha', this]
      | succ j' =>
        have hj' : j' < xs.length := by simpa using hj
        have := hbj j' hj'
        simp only [ha'] at this
        have harith : a.count + 1 + j' = a.count + (j' + 1) := by omega
        rw [harith] at this
        simpa using this
    · intro i hi
      have hi' : i < a'.count ∨ a'.count + xs.length ≤ i := by
        simp only [ha']
        rcases hi with h | h
        · exact Or.inl (by omega)
        · simp at h; right; omega
      have hne : i ≠ a.count := by
        rcases hi with h | h
        · omega
        · simp at h; omega
      rw [hbo i hi']
      simp [ha', Function.update_noteq hne]

/-! ## Mach-O cputype handling (src/parse_file.cpp lines 68-90) -/

/- Modelled from the spec: the cpu constants live in include/orc/mach_types.hpp,
   which is not among the presented sources; the values follow spec sections
   4.C and 6 (and the Mach-O ABI). -/
def CPU_ARCH_ABI64 : Nat := 0x01000000
def CPU_ARCH_ABI64_32 : Nat := 0x02000000
def CPU_TYPE_X86 : Nat := 7
def CPU_TYPE_X86_64 : Nat := CPU_TYPE_X86 ||| CPU_ARCH_ABI64
def CPU_TYPE_ARM : Nat := 12
def CPU_TYPE_ARM64 : Nat := CPU_TYPE_ARM ||| CPU_ARCH_ABI64
def CPU_TYPE_ARM64_32 : Nat := CPU_TYPE_ARM ||| CPU_ARCH_ABI64_32

/- `enum class arch` (include/orc/dwarf_structs.hpp lines 266-273). -/
inductive arch where
  | unknown
  | x86
  | x86_64
  | arm
  | arm64
  | arm64_32
deriving DecidableEq

/- The cputype branch of `detect_file` (src/parse_file.cpp lines 75-89): the
   returned Bool records whether the unknown-cputype warning was written; the
   arch defaults to `unknown` when no branch matches. -/
def detect_file_arch (cputype : Nat) : arch × Bool :=
  if cputype = CPU_TYPE_X86 then (arch.x86, false)
  else if cputype = CPU_TYPE_X86_64 then (arch.x86_64, false)
  else if cputype = CPU_TYPE_ARM then (arch.arm, false)
  else if cputype = CPU_TYPE_ARM64 then (arch.arm64, false)
  else if cputype = CPU_TYPE_ARM64_32 then (arch.arm64, false)
  else (arch.unknown, true)

/-! ## Claim theorems for C4, C7, C8, C9, C10 -/

/-- C4 counterexample: the claim says `detect_file` maps cputype
`arm64_32 (12|ABI64_32)` to the like-named member `arch::arm64_32`; the code
maps it to `arch::arm64` instead (src/parse_file.cpp lines 83-84). -/
theorem C4_counterexample :
    (detect_file_arch CPU_TYPE_ARM64_32).1 = arch.arm64 ∧
    (detect_file_arch CPU_TYPE_ARM64_32).1 ≠ arch.arm64_32 := by
  constructor
  · rfl
  · decide

/-- C4 (amended): `detect_file` maps cputype 7 to `arch::x86`, 7|ABI64 to
`arch::x86_64`, 12 to `arch::arm`, 12|ABI64 to `arch::arm64`, and 12|ABI64_32
to `arch::arm64` (not `arch::arm64_32`); any other cputype emits a warning and
leaves the arch `unknown`. -/
theorem C4_detect_file_arch_amended (cputype : Nat)
    (h : cputype ∉ [CPU_TYPE_X86, CPU_TYPE_X86_64, CPU_TYPE_ARM,
                    CPU_TYPE_ARM64, CPU_TYPE_ARM64_32]) :
    detect_file_arch CPU_TYPE_X86 = (arch.x86, false) ∧
    detect_file_arch CPU_TYPE_X86_64 = (arch.x86_64, false) ∧
    detect_file_arch CPU_TYPE_ARM = (arch.arm, false) ∧
    detect_file_arch CPU_TYPE_ARM64 = (arch.arm64, false) ∧
    detect_file_arch CPU_TYPE_ARM64_32 = (arch.arm64, false) ∧
    detect_file_arch cputype = (arch.unknown, true) := by
  simp only [List.mem_cons, List.not_mem_nil] at h
  push_neg at h
  obtain ⟨h1, h2, h3, h4, h5, _⟩ := h
  refine ⟨by decide, by decide, by decide, by decide, by decide, ?_⟩
  simp [detect_file_arch, h1, h2, h3, h4, h5]

/-- C4 witness: the amended mapping evaluated with the unknown cputype 3. -/
theorem C4_detect_file_arch_amended_witness :
    detect_file_arch 3 = (arch.unknown, true) :=
  (C4_detect_file_arch_amended 3 (by decide)).2.2.2.2.2

/-- C7 (code bug): with the parent reader at position 4 of a window starting at
address 0 and `subbuf(8)` remapping to a fresh base address 1000, the claim
(and the source's own header comment) require a window `[4, 8)`: `tellg() = 0`
and `size() = 8 - 4`.  The code instead yields `size() = 8` (the whole
`end_pos`, the cursor-to-end distance is not subtracted) and a `tellg()` that
mixes addresses of two unrelated mappings (-1004 here), because `_p` and `_l`
are computed from the parent's `_f` while `_f` is the fresh mapping base. -/
theorem C7_subbuf_failing_input :
    (freader.subbuf ⟨0, 4, 100⟩ 8 1000).size = 8 ∧
    (freader.subbuf ⟨0, 4, 100⟩ 8 1000).size ≠ 8 - 4 ∧
    (freader.subbuf ⟨0, 4, 100⟩ 8 1000).tellg = -1004 ∧
    (freader.subbuf ⟨0, 4, 100⟩ 8 1000).tellg ≠ 0 := by
  refine ⟨rfl, by decide, rfl, by decide⟩

/-- C10: an end-relative seek depends on the reader's current position:
`seekg(offset, std::ios::end)` sets the read position (measured from the
window base) to `size() - offset`, where `size()` is the distance from the
current cursor to the window end; the position equals
`(window size) - offset` precisely when the reader was at position 0. -/
theorem C10_seekg_end (r : freader) (offset : Int) :
    (r.seekgEnd offset).tellg = r.size - offset ∧
    ((r.seekgEnd offset).tellg = (r.l - r.f) - offset ↔ r.tellg = 0) := by
  have h1 : (r.seekgEnd offset).tellg = (r.l - r.p) - offset := by
    show (r.f + ((r.l - r.p) - offset)) - r.f = (r.l - r.p) - offset
    ring
  have h2 : r.size = r.l - r.p := rfl
  have h3 : r.tellg = r.p - r.f := rfl
  rw [h1, h2, h3]
  exact ⟨rfl, by constructor <;> intro h <;> omega⟩

/-- C8 counterexample: the claim allows up to 5 `emplace_back` calls, but the
guarding assertion `(_count + 1) < _ancestors.size()` (array size 5) already
fails on the fifth call: appending five names to a fresh ancestry faults. -/
theorem C8_counterexample :
    emplaceList object_ancestry.empty
      [some 1, some 2, some 3, some 4, some 5] = none := rfl

/-- C8 (amended): an object-file ancestry accepts up to 4 interned names: for
every fresh object_ancestry and every sequence of at most 4 `emplace_back`
calls, each call's guarding assertion holds and afterwards `_count` equals the
number of names appended.  (A fifth call fails the assertion.) -/
theorem C8_emplace_back_amended (l : List (Option Nat)) (h : l.length ≤ 4) :
    ∃ b, emplaceList object_ancestry.empty l = some b ∧ b.count = l.length := by
  obtain ⟨b, h1, h2, -, -⟩ :=
    emplaceList_spec l object_ancestry.empty
      (by simpa [object_ancestry.empty] using h)
  exact ⟨b, h1, by simpa [object_ancestry.empty] using h2⟩

/-- C8 witness: two names appended to a fresh ancestry. -/
theorem C8_emplace_back_amended_witness :
    ∃ b, emplaceList object_ancestry.empty [some 7, some 8] = some b ∧
      b.count = [some 7, some 8].length :=
  C8_emplace_back_amended [some 7, some 8] (by decide)

/-- C9: after n `emplace_back` calls (1 ≤ n < 5) on a fresh ancestry, `back()`
returns the array slot at index `_count` — one past the last appended name and
still the default (null) interned handle — while the most recently appended
name sits at index `_count - 1`. -/
theorem C9_back_off_by_one (l : List (Option Nat)) (x : Option Nat)
    (h : (l ++ [x]).length < 5) :
    ∃ b, emplaceList object_ancestry.empty (l ++ [x]) = some b ∧
      b.back = some none ∧ b.ancestors (b.count - 1) = x := by
  have hlen : (l ++ [x]).length ≤ 4 := by omega
  obtain ⟨b, h1, h2, h3, h4⟩ :=
    emplaceList_spec (l ++ [x]) object_ancestry.empty
      (by simpa [object_ancestry.empty] using hlen)
  simp only [object_ancestry.empty, Nat.zero_add] at h2 h3 h4
  have hcount : b.count = l.length + 1 := by simpa using h2
  refine ⟨b, h1, ?_, ?_⟩
  · have hnz : b.count ≠ 0 := by omega
    have hout : b.ancestors b.count = none := by
      have := h4 b.count (Or.inr (by simp [hcount]))
      simpa [object_ancestry.empty] using this
    simp [object_ancestry.back, hnz, hout]
  · have hidx : l.length < (l ++ [x]).length := by simp
    have := h3 l.length hidx
    have hget : (l ++ [x]).get ⟨l.length, hidx⟩ = x := by
      simp [List.get_eq_getElem]
    rw [hget] at this
    rw [hcount]
    simpa using this

/-- C9 witness: one name appended; `back()` yields the default handle while the
appended name sits at index `_count - 1`. -/
theorem C9_back_off_by_one_witness :
    ∃ b, emplaceList object_ancestry.empty ([] ++ [some 7]) = some b ∧
      b.back = some none ∧ b.ancestors (b.count - 1) = some 7 :=
  C9_back_off_by_one [] (some 7) (by decide)

/-! ## DWARF attribute values (include/orc/dwarf_structs.hpp lines 29-170) -/

/- DWARF attribute codes used here.  Modelled from the spec: dwarf_constants.hpp
   is not among the presented sources; the numeric values are the DWARF
   standard codes. -/
def dw_at_none : Nat := 0
def dw_at_location : Nat := 0x02
def dw_at_low_pc : Nat := 0x11
def dw_at_high_pc : Nat := 0x12
def dw_at_decl_column : Nat := 0x39
def dw_at_decl_file : Nat := 0x3a
def dw_at_decl_line : Nat := 0x3b
def dw_at_type : Nat := 0x49
def dw_at_ranges : Nat := 0x55

/-- Modelled from the spec: `nonfatal_attribute` is declared in
dwarf_structs.hpp line 346 but defined in dwarf.cpp, which is not among the
presented sources.  Spec section 4.D: nonfatal attributes include decl_file,
decl_line, decl_column, low_pc, high_pc, ranges, location (plus further
debugger-only fields that never occur in this development); `AT_type` is fatal
(the ODRV categories of spec section 8 depend on it). -/
def nonfatal_attribute (a : Nat) : Bool :=
  decide (a ∈ [dw_at_decl_file, dw_at_decl_line, dw_at_decl_column,
               dw_at_low_pc, dw_at_high_pc, dw_at_ranges, dw_at_location])

/- `attribute_value` (dwarf_structs.hpp lines 29-124).  The `_type` flag set is
   spread into six Bools; `uintv` models `_uint` (which doubles as the
   reference offset, as in the source), `sintv` models `_int`, `stringv`
   models the interned `_string` by its content hash (0 for the null handle),
   `diev` models the non-owning `_die` link by an optional identifier. -/
structure attribute_value where
  has_passover : Bool := false
  has_uint : Bool := false
  has_sint : Bool := false
  has_string : Bool := false
  has_reference : Bool := false
  has_die : Bool := false
  uintv : Nat := 0
  sintv : Int := 0
  stringv : Nat := 0
  diev : Option Nat := none
deriving DecidableEq

/- The `_type` bit set of a value, as one comparable tuple. -/
def attribute_value.typeFlags (x : attribute_value) :
    Bool × Bool × Bool × Bool × Bool × Bool :=
  (x.has_passover, x.has_uint, x.has_sint, x.has_string, x.has_reference,
   x.has_die)

/- `operator==(const attribute_value&, const attribute_value&)` (dwarf_structs.hpp
   lines 126-141): string first, then uint, then sint; references and die links
   are deliberately not compared; otherwise the flag sets are compared. -/
def attribute_value.eq (x y : attribute_value) : Bool :=
  if x.has_string then x.stringv == y.stringv
  else if x.has_uint then x.uintv == y.uintv
  else if x.has_sint then x.sintv == y.sintv
  else x.typeFlags == y.typeFlags

/- `struct attribute` (dwarf_structs.hpp lines 147-161): the triple
   `(_name, _form, _value)`.  (`attribute` is a Lean keyword, hence the
   `_t` suffix.) -/
structure attribute_t where
  name : Nat := 0
  form : Nat := 0
  value : attribute_value := {}
deriving DecidableEq

/- `operator==(const attribute&, const attribute&)` (dwarf_structs.hpp line 163). -/
def attribute_t.eq (x y : attribute_t) : Bool :=
  x.name == y.name && x.form == y.form && attribute_value.eq x.value y.value

/- `type_equivalent` (src/orc.cpp lines 105-121). -/
def type_equivalent (x y : attribute_t) : Bool :=
  (x.value.has_reference && y.value.has_reference &&
    x.value.uintv == y.value.uintv) ||
  (x.value.has_string && y.value.has_string &&
    x.value.stringv == y.value.stringv)

/- First loop of `find_attribute_conflict` (src/orc.cpp lines 73-88): walk the
   fatal attributes of x, look each name up in y (`std::find_if` over all of
   y), report the first absent or disagreeing name. -/
def findConflictFirst (y : List attribute_t) : List attribute_t → Option Nat
  | [] => none
  | xattr :: xs =>
    if nonfatal_attribute xattr.name then findConflictFirst y xs
    else
      match y.find? (fun a => a.name == xattr.name) with
      | none => some xattr.name
      | some yattr =>
        if xattr.name == dw_at_type && type_equivalent xattr yattr then
          findConflictFirst y xs
        else if attribute_t.eq xattr yattr then findConflictFirst y xs
        else some xattr.name

/- Second loop of `find_attribute_conflict` (src/orc.cpp lines 90-98): report
   the first fatal attribute of y that is absent from x. -/
def findMissingSecond (x : List attribute_t) : List attribute_t → Option Nat
  | [] => none
  | yattr :: ys =>
    if nonfatal_attribute yattr.name then findMissingSecond x ys
    else
      match x.find? (fun a => a.name == yattr.name) with
      | none => some yattr.name
      | some _ => findMissingSecond x ys

/- `find_attribute_conflict` (src/orc.cpp lines 69-101). -/
def find_attribute_conflict (x y : List attribute_t) : Nat :=
  match findConflictFirst y x with
  | some n => n
  | none =>
    match findMissingSecond x y with
    | some n => n
    | none => dw_at_none

/- An AT_type attribute holding an interned type-name string with hash h. -/
def strTypeAttr (h : Nat) : attribute_t :=
  { name := dw_at_type, form := 1,
    value := { has_string := true, stringv := h } }

theorem attribute_t.eq_refl (a : attribute_t) : attribute_t.eq a a = true := by
  simp [attribute_t.eq, attribute_value.eq]

theorem find_self {x : List attribute_t} (h : (x.map attribute_t.name).Nodup) :
    ∀ a ∈ x, x.find? (fun b => b.name == a.name) = some a := by
  induction x with
  | nil => intro a ha; cases ha
  | cons c cs ih =>
    intro a ha
    simp only [List.map_cons, List.nodup_cons] at h
    rcases List.mem_cons.mp ha with rfl | hmem
    · exact List.find?_cons_of_pos cs (by simp)
    · have hne : c.name ≠ a.name := fun hcontra => by
        exact h.1 (hcontra ▸ List.mem_map_of_mem attribute_t.name hmem)
      rw [List.find?_cons_of_neg cs (by simpa using hne)]
      exact ih h.2 a hmem

theorem findConflictFirst_self (x : List attribute_t)
    (hfind : ∀ a ∈ x, x.find? (fun b => b.name == a.name) = some a) :
    ∀ xs, (∀ a ∈ xs, a ∈ x) → findConflictFirst x xs = none := by
  intro xs
  induction xs with
  | nil => intro; rfl
  | cons c cs ih =>
    intro hsub
    have hce : c ∈ x := hsub c (List.mem_cons_self c _)
    have hrec := ih (fun a ha => hsub a (List.mem_cons_of_mem c ha))
    unfold findConflictFirst
    cases hnf : nonfatal_attribute c.name
    · rw [hfind c hce]
      simp only [hnf]
      cases htype : c.name == dw_at_type && type_equivalent c c
      · simp [attribute_t.eq_refl, hrec]
      · simp [hrec]
    · simpa [hnf] using hrec

theorem findMissingSecond_self (x : List attribute_t)
    (hfind : ∀ a ∈ x, ∃ b, x.find? (fun c => c.name == a.name) = some b) :
    ∀ ys, (∀ a ∈ ys, a ∈ x) → findMissingSecond x ys = none := by
  intro ys
  induction ys with
  | nil => intro; rfl
  | cons c cs ih =>
    intro hsub
    have hce : c ∈ x := hsub c (List.mem_cons_self c _)
    have hrec := ih (fun a ha => hsub a (List.mem_cons_of_mem c ha))
    obtain ⟨b, hb⟩ := hfind c hce
    unfold findMissingSecond
    cases hnf : nonfatal_attribute c.name
    · rw [hb]
      simpa using hrec
    · simpa [hnf] using hrec

/-- C2 counterexample: reflexivity fails on a sequence with a duplicated fatal
attribute name.  With X = [AT_type ↦ string hash 5, AT_type ↦ string hash 6],
the lookup of the second attribute's name in y = X finds the first entry, the
two string hashes disagree, and find_attribute_conflict(X, X) returns AT_type
instead of the sentinel none. -/
theorem C2_counterexample :
    find_attribute_conflict [strTypeAttr 5, strTypeAttr 6]
      [strTypeAttr 5, strTypeAttr 6] ≠ dw_at_none := by decide

/-- C2 (amended): find_attribute_conflict is reflexive on every attribute
sequence whose attribute names are pairwise distinct (as produced from a DWARF
abbreviation entry): find_attribute_conflict(X, X) = none. -/
theorem C2_find_attribute_conflict_refl (x : List attribute_t)
    (h : (x.map attribute_t.name).Nodup) :
    find_attribute_conflict x x = dw_at_none := by
  have hfind := find_self h
  unfold find_attribute_conflict
  rw [findConflictFirst_self x hfind x (fun a ha => ha)]
  rw [findMissingSecond_self x (fun a ha => ⟨a, hfind a ha⟩) x (fun a ha => ha)]

/-- C2 witness: a two-element sequence with distinct names (an AT_type string
and a reference-valued attribute) is a fixed point of the conflict scan. -/
theorem C2_find_attribute_conflict_refl_witness :
    find_attribute_conflict
      [strTypeAttr 5,
       { name := 0x47, form := 2, value := { has_reference := true, uintv := 9 } }]
      [strTypeAttr 5,
       { name := 0x47, form := 2, value := { has_reference := true, uintv := 9 } }] =
      dw_at_none :=
  C2_find_attribute_conflict_refl _ (by decide)

/-! ## Report filtering (src/orc.cpp lines 376-394) -/

/- `sorted_has` (include/orc/dwarf_structs.hpp lines 350-354): std::lower_bound
   on the (sorted) list yields the first element not less than x; the result is
   compared against x. -/
def sorted_has (c : List String) (x : String) : Bool :=
  match c.find? (fun e => !(decide (e < x))) with
  | some e => decide (e = x)
  | none => false

/- The two filtering settings of `settings::instance()` consulted by
   `filter_report`. -/
structure odrv_filter_settings where
  violation_ignore : List String
  violation_report : List String

/- `filter_report` (src/orc.cpp lines 376-394), applied to the report's
   category string. -/
def filter_report (s : odrv_filter_settings) (category : String) : Bool :=
  if s.violation_ignore ≠ [] then !sorted_has s.violation_ignore category
  else if s.violation_report ≠ [] then sorted_has s.violation_report category
  else true

theorem sorted_has_iff_mem {c : List String} (hs : List.Sorted (· ≤ ·) c)
    (x : String) : sorted_has c x = true ↔ x ∈ c := by
  induction c with
  | nil => simp [sorted_has]
  | cons a tl ih =>
    rw [List.sorted_cons] at hs
    by_cases hlt : a < x
    · have hpred : ¬((fun e => !(decide (e < x))) a = true) := by simp [hlt]
      have : sorted_has (a :: tl) x = sorted_has tl x := by
        unfold sorted_has
        rw [List.find?_cons_of_neg tl hpred]
      rw [this, ih hs.2]
      constructor
      · exact fun h => List.mem_cons_of_mem a h
      · intro h
        rcases List.mem_cons.mp h with rfl | h
        · exact absurd hlt (lt_irrefl x)
        · exact h
    · have hpred : (fun e => !(decide (e < x))) a = true := by simp [hlt]
      have hfound : sorted_has (a :: tl) x = decide (a = x) := by
        unfold sorted_has
        rw [List.find?_cons_of_pos tl hpred]
      rw [hfound]
      constructor
      · intro h
        exact List.mem_cons.mpr (Or.inl (of_decide_eq_true h).symm)
      · intro h
        rcases List.mem_cons.mp h with rfl | h
        · simp
        · have hax : a ≤ x := hs.1 x h
          have : a = x := le_antisymm hax (not_lt.mp hlt)
          simp [this]

/-- C6: with both category lists sorted, filter_report keeps a report iff its
category is not in violation_ignore whenever violation_ignore is non-empty
(violation_report having no effect then); iff its category is in
violation_report when violation_ignore is empty and violation_report is not;
and always when both lists are empty. -/
theorem C6_filter_report (s : odrv_filter_settings) (category : String)
    (hig : List.Sorted (· ≤ ·) s.violation_ignore)
    (hrep : List.Sorted (· ≤ ·) s.violation_report) :
    (s.violation_ignore ≠ [] →
      (filter_report s category = true ↔ category ∉ s.violation_ignore) ∧
      ∀ rep, filter_report ⟨s.violation_ignore, rep⟩ category =
        filter_report s category) ∧
    (s.violation_ignore = [] → s.violation_report ≠ [] →
      (filter_report s category = true ↔ category ∈ s.violation_report)) ∧
    (s.violation_ignore = [] → s.violation_report = [] →
      filter_report s category = true) := by
  refine ⟨fun hne => ⟨?_, ?_⟩, fun he hne => ?_, fun he1 he2 => ?_⟩
  · rw [filter_report, if_pos hne, Bool.not_eq_eq_eq_not, Bool.not_true,
      ← Bool.not_eq_true, sorted_has_iff_mem hig]
  · intro rep
    simp [filter_report, hne]
  · rw [filter_report, if_neg (by simp [he]), if_pos hne,
      sorted_has_iff_mem hrep]
  · simp [filter_report, he1, he2]

/-- C6 witness: ignore list ["a"] with report list ["b"]: the category "a"
is dropped; evaluated through the theorem at that concrete input. -/
theorem C6_filter_report_witness :
    (filter_report ⟨["a"], ["b"]⟩ "a" = true ↔ "a" ∉ (["a"] : List String)) ∧
    filter_report ⟨["a"], []⟩ "a" = filter_report ⟨["a"], ["b"]⟩ "a" := by
  have h := (C6_filter_report ⟨["a"], ["b"]⟩ "a" (by simp) (by simp)).1
    (by simp)
  exact ⟨h.1, h.2 []⟩

/-! ## The ODRV enforcement pass (src/orc.cpp lines 416-453) -/

/- The element-wise loop of `object_ancestry::operator<`
   (include/orc/dwarf_structs.hpp lines 306-311), reached only when the two
   counts are equal: compare the interned views pairwise. -/
def ancLexLt : List String → List String → Bool
  | [], _ => false
  | _ :: _, [] => false
  | a :: as, b :: bs =>
    if a < b then true else if b < a then false else ancLexLt as bs

/- `object_ancestry::operator<` (dwarf_structs.hpp lines 301-313): counts
   first, then the views.  An ancestry value is modelled as the list of its
   first `_count` views. -/
def ancLt (x y : List String) : Bool :=
  if x.length < y.length then true
  else if y.length < x.length then false
  else ancLexLt x y

theorem ancLexLt_irrefl : ∀ x, ancLexLt x x = false := by
  intro x
  induction x with
  | nil => rfl
  | cons a as ih => simp [ancLexLt, lt_irrefl, ih]

theorem ancLexLt_trans : ∀ x y z : List String,
    ancLexLt x y = true → ancLexLt y z = true → ancLexLt x z = true := by
  intro x
  induction x with
  | nil => intro y z h1; simp [ancLexLt] at h1
  | cons a as ih =>
    intro y z h1 h2
    cases y with
    | nil => simp [ancLexLt] at h1
    | cons b bs =>
      cases z with
      | nil => simp [ancLexLt] at h2
      | cons c cs =>
        simp only [ancLexLt] at h1 h2 ⊢
        by_cases hab : a < b
        · by_cases hbc : b < c
          · rw [if_pos (lt_trans hab hbc)]
          · by_cases hcb : c < b
            · rw [if_neg hbc, if_pos hcb] at h2
              exact absurd h2 (by simp)
            · have hbceq : b = c := le_antisymm (not_lt.mp hcb) (not_lt.mp hbc)
              rw [if_pos (hbceq ▸ hab)]
        · by_cases hba : b < a
          · rw [if_neg hab, if_pos hba] at h1
            exact absurd h1 (by simp)
          · have habeq : a = b := le_antisymm (not_lt.mp hba) (not_lt.mp hab)
            rw [if_neg hab, if_neg hba] at h1
            by_cases hbc : b < c
            · rw [if_pos (habeq ▸ hbc)]
            · by_cases hcb : c < b
              · rw [if_neg hbc, if_pos hcb] at h2
                exact absurd h2 (by simp)
              · have hbceq : b = c := le_antisymm (not_lt.mp hcb) (not_lt.mp hbc)
                rw [if_neg hbc, if_neg hcb] at h2
                have hac : ¬a < c := hbceq ▸ habeq ▸ lt_irrefl a
                have hca : ¬c < a := hbceq ▸ habeq ▸ lt_irrefl a
                rw [if_neg hac, if_neg hca]
                exact ih bs cs h1 h2

theorem ancLexLt_connex : ∀ x y : List String, x.length = y.length →
    ancLexLt x y = false → ancLexLt y x = false → x = y := by
  intro x
  induction x with
  | nil =>
    intro y hlen _ _
    cases y with
    | nil => rfl
    | cons b bs => simp at hlen
  | cons a as ih =>
    intro y hlen h1 h2
    cases y with
    | nil => simp at hlen
    | cons b bs =>
      simp only [ancLexLt] at h1 h2
      by_cases hab : a < b
      · rw [if_pos hab] at h1; exact absurd h1 (by simp)
      · by_cases hba : b < a
        · rw [if_pos hba] at h2; exact absurd h2 (by simp)
        · have habeq : a = b := le_antisymm (not_lt.mp hba) (not_lt.mp hab)
          rw [if_neg hab, if_neg hba] at h1
          rw [if_neg hba, if_neg hab] at h2
          have : as = bs := ih bs (by simpa using hlen) h1 h2
          rw [habeq, this]

theorem ancLt_irrefl (x : List String) : ancLt x x = false := by
  simp [ancLt, ancLexLt_irrefl]

theorem ancLt_trans {x y z : List String} (h1 : ancLt x y = true)
    (h2 : ancLt y z = true) : ancLt x z = true := by
  unfold ancLt at h1 h2 ⊢
  by_cases e1 : x.length < y.length
  · by_cases e2 : y.length < z.length
    · rw [if_pos (by omega)]
    · by_cases e3 : z.length < y.length
      · rw [if_neg e2, if_pos e3] at h2
        exact absurd h2 (by simp)
      · rw [if_pos (by omega)]
  · by_cases e4 : y.length < x.length
    · rw [if_neg e1, if_pos e4] at h1
      exact absurd h1 (by simp)
    · rw [if_neg e1, if_neg e4] at h1
      by_cases e2 : y.length < z.length
      · rw [if_pos (by omega)]
      · by_cases e3 : z.length < y.length
        · rw [if_neg e2, if_pos e3] at h2
          exact absurd h2 (by simp)
        · rw [if_neg e2, if_neg e3] at h2
          rw [if_neg (by omega), if_neg (by omega)]
          exact ancLexLt_trans x y z h1 h2

theorem ancLt_connex {x y : List String} (h1 : ancLt x y = false)
    (h2 : ancLt y x = false) : x = y := by
  unfold ancLt at h1 h2
  by_cases e1 : x.length < y.length
  · rw [if_pos e1] at h1; exact absurd h1 (by simp)
  · by_cases e2 : y.length < x.length
    · rw [if_pos e2] at h2; exact absurd h2 (by simp)
    · rw [if_neg e1, if_neg e2] at h1
      rw [if_neg e2, if_neg e1] at h2
      exact ancLexLt_connex x y (by omega) h1 h2

/- The fields of `struct die` (include/orc/dwarf_structs.hpp lines 321-338)
   read by `enforce_odrv_for_die_list`; the `_next_die` chain is represented
   by the order of a Lean list, so "re-linking the list" is returning the
   re-ordered list and "the last member's _next_die is null" is inherent. -/
structure die where
  fatal_attribute_hash : Nat
  ofd_index : Nat
  conflict : Bool
deriving DecidableEq

/- The comparator handed to std::sort (src/orc.cpp lines 427-429), as the
   non-strict relation the sorted output satisfies.  `object_file_ancestry`
   lives in the object-file registry, which is not among the presented
   sources; it is modelled as an arbitrary map `anc` from `_ofd_index` to the
   ancestry views. -/
def dieLe (anc : Nat → List String) (a b : die) : Prop :=
  ¬ancLt (anc b.ofd_index) (anc a.ofd_index) = true

instance (anc : Nat → List String) : DecidableRel (dieLe anc) :=
  fun _ _ => instDecidableNot

instance (anc : Nat → List String) : IsTotal die (dieLe anc) where
  total a b := by
    by_cases h : ancLt (anc b.ofd_index) (anc a.ofd_index) = true
    · right
      intro hcontra
      have := ancLt_trans h hcontra
      rw [ancLt_irrefl] at this
      exact absurd this (by simp)
    · left; exact h

instance (anc : Nat → List String) : IsTrans die (dieLe anc) where
  trans a b c hab hbc := by
    intro hca
    by_cases hab' : ancLt (anc a.ofd_index) (anc b.ofd_index) = true
    · exact hbc (ancLt_trans hca hab')
    · have hba : ancLt (anc b.ofd_index) (anc a.ofd_index) = false :=
        Bool.eq_false_iff.mpr hab
      have hab'' : ancLt (anc a.ofd_index) (anc b.ofd_index) = false :=
        Bool.eq_false_iff.mpr hab'
      have heq : anc b.ofd_index = anc a.ofd_index := ancLt_connex hba hab''
      have hbc' : ¬ancLt (anc c.ofd_index) (anc b.ofd_index) = true := hbc
      rw [heq] at hbc'
      exact hbc' hca

/- The adjacent-pair scan of the sorted dies (src/orc.cpp lines 431-439). -/
def adjacentConflict : List die → Bool
  | a :: b :: rest =>
    (a.fatal_attribute_hash != b.fatal_attribute_hash) ||
      adjacentConflict (b :: rest)
  | _ => false

/- `dies[0]->_conflict = true` (src/orc.cpp line 444). -/
def setHeadConflict : List die → List die
  | [] => []
  | d :: rest => { d with conflict := true } :: rest

/- `enforce_odrv_for_die_list` (src/orc.cpp lines 416-453) over the collected
   chain (`base`, `base->_next_die`, ...).  std::sort is modelled by insertion
   sort, a permutation satisfying the comparator.  The returned Bool records
   whether an ODRV report was pushed onto the results vector (exactly one per
   call, under the results mutex). -/
def enforce_odrv_for_die_list (anc : Nat → List String) (chain : List die) :
    List die × Bool :=
  if chain.length = 1 then (chain, false)
  else
    let sorted := List.insertionSort (dieLe anc) chain
    if adjacentConflict sorted then (setHeadConflict sorted, true)
    else (sorted, false)

/- The data of a die that the conflict scan and the sort key inspect. -/
def diePayload (d : die) : Nat × Nat := (d.fatal_attribute_hash, d.ofd_index)

theorem setHeadConflict_payload :
    ∀ l : List die, (setHeadConflict l).map diePayload = l.map diePayload := by
  intro l
  cases l with
  | nil => rfl
  | cons d rest => rfl

theorem setHeadConflict_sorted {anc : Nat → List String} {l : List die}
    (h : List.Sorted (dieLe anc) l) :
    List.Sorted (dieLe anc) (setHeadConflict l) := by
  cases l with
  | nil => exact h
  | cons d rest =>
    rw [List.sorted_cons] at h
    exact List.sorted_cons.mpr ⟨fun b hb => h.1 b hb, h.2⟩

theorem adjacentConflict_eq_false_iff : ∀ l : List die,
    adjacentConflict l = false ↔
      ∀ a ∈ l, ∀ b ∈ l,
        a.fatal_attribute_hash = b.fatal_attribute_hash := by
  intro l
  induction l with
  | nil => simp [adjacentConflict]
  | cons d rest ih =>
    cases rest with
    | nil => simp [adjacentConflict]
    | cons e rest' =>
      have hunf : adjacentConflict (d :: e :: rest') =
          ((d.fatal_attribute_hash != e.fatal_attribute_hash) ||
            adjacentConflict (e :: rest')) := rfl
      rw [hunf]
      constructor
      · intro h
        simp only [Bool.or_eq_false_iff, bne_eq_false_iff_eq] at h
        obtain ⟨hde, hrest⟩ := h
        have hall := ih.mp hrest
        intro a ha b hb
        have hval : ∀ c ∈ d :: e :: rest',
            c.fatal_attribute_hash = e.fatal_attribute_hash := by
          intro c hc
          rcases List.mem_cons.mp hc with rfl | hc'
          · exact hde
          · exact hall c hc' e (List.mem_cons_self e _)
        rw [hval a ha, hval b hb]
      · intro h
        simp only [Bool.or_eq_false_iff, bne_eq_false_iff_eq]
        refine ⟨h d (List.mem_cons_self d _) e (List.mem_cons.mpr (Or.inr (List.mem_cons_self e _))), ?_⟩
        exact ih.mpr fun a ha b hb =>
          h a (List.mem_cons_of_mem d ha) b (List.mem_cons_of_mem d hb)

/-- C1: for every registry chain: a chain of length 1 is returned unchanged
with no report; for length ≥ 2 the returned chain is a permutation of the
members (their payloads unchanged), re-linked in order sorted ascending by
`object_file_ancestry(ofd_index)` (the sorted front being the new head and
the last `_next_die` null, inherent in the list representation), exactly one
ODRV report is appended iff at least two chain members have differing
`_fatal_attribute_hash`, and in that case the new head carries the `_conflict`
flag. -/
theorem C1_enforce_odrv_for_die_list (anc : Nat → List String)
    (chain : List die) (_hne : chain ≠ []) :
    (chain.length = 1 →
      enforce_odrv_for_die_list anc chain = (chain, false)) ∧
    (2 ≤ chain.length →
      ((enforce_odrv_for_die_list anc chain).1.map diePayload).Perm
          (chain.map diePayload) ∧
      List.Sorted (dieLe anc) (enforce_odrv_for_die_list anc chain).1 ∧
      ((enforce_odrv_for_die_list anc chain).2 = true ↔
        ∃ a ∈ chain, ∃ b ∈ chain,
          a.fatal_attribute_hash ≠ b.fatal_attribute_hash) ∧
      ((enforce_odrv_for_die_list anc chain).2 = true →
        ∃ d rest, (enforce_odrv_for_die_list anc chain).1 = d :: rest ∧
          d.conflict = true)) := by
  constructor
  · intro h1
    simp [enforce_odrv_for_die_list, h1]
  · intro h2
    have hne1 : ¬chain.length = 1 := by omega
    have hperm : (List.insertionSort (dieLe anc) chain).Perm chain :=
      List.perm_insertionSort _ _
    have hsorted : List.Sorted (dieLe anc) (List.insertionSort (dieLe anc) chain) :=
      List.sorted_insertionSort _ _
    have hiff : (∃ a ∈ chain, ∃ b ∈ chain,
          a.fatal_attribute_hash ≠ b.fatal_attribute_hash) ↔
        ¬adjacentConflict (List.insertionSort (dieLe anc) chain) = false := by
      rw [adjacentConflict_eq_false_iff]
      push_neg
      constructor
      · rintro ⟨a, ha, b, hb, hab⟩
        exact ⟨a, hperm.mem_iff.mpr ha, b, hperm.mem_iff.mpr hb, hab⟩
      · rintro ⟨a, ha, b, hb, hab⟩
        exact ⟨a, hperm.mem_iff.mp ha, b, hperm.mem_iff.mp hb, hab⟩
    by_cases hconf : adjacentConflict (List.insertionSort (dieLe anc) chain) = true
    · have hunf : enforce_odrv_for_die_list anc chain =
          (setHeadConflict (List.insertionSort (dieLe anc) chain), true) := by
        simp [enforce_odrv_for_die_list, hne1, hconf]
      rw [hunf]
      have hsne : List.insertionSort (dieLe anc) chain ≠ [] := by
        intro hcontra
        have := hperm.length_eq
        rw [hcontra] at this
        simp at this
        omega
      refine ⟨?_, setHeadConflict_sorted hsorted, ?_, ?_⟩
      · rw [setHeadConflict_payload]
        exact hperm.map diePayload
      · simp only [true_iff]
        rw [hiff, hconf]
        simp
      · intro
        cases hs : List.insertionSort (dieLe anc) chain with
        | nil => exact absurd hs hsne
        | cons d rest =>
          exact ⟨{ d with conflict := true }, rest, rfl, rfl⟩
    · have hconf' : adjacentConflict (List.insertionSort (dieLe anc) chain) = false := by
        simpa using hconf
      have hunf : enforce_odrv_for_die_list anc chain =
          (List.insertionSort (dieLe anc) chain, false) := by
        simp [enforce_odrv_for_die_list, hne1, hconf']
      rw [hunf]
      refine ⟨hperm.map diePayload, hsorted, ?_, by simp⟩
      simp only [Bool.false_eq_true, false_iff]
      rw [hiff, hconf']
      simp

/-- C1 witness: a two-member chain with differing fatal hashes, evaluated
through the theorem: a report is pushed. -/
theorem C1_enforce_odrv_for_die_list_witness :
    (2 : Nat) ≤ ([⟨1, 0, false⟩, ⟨2, 0, false⟩] : List die).length ∧
    ((enforce_odrv_for_die_list (fun _ => []) [⟨1, 0, false⟩, ⟨2, 0, false⟩]).2 = true ↔
      ∃ a ∈ ([⟨1, 0, false⟩, ⟨2, 0, false⟩] : List die),
        ∃ b ∈ ([⟨1, 0, false⟩, ⟨2, 0, false⟩] : List die),
          a.fatal_attribute_hash ≠ b.fatal_attribute_hash) :=
  ⟨by decide,
    ((C1_enforce_odrv_for_die_list (fun _ => []) [⟨1, 0, false⟩, ⟨2, 0, false⟩]
      (by decide)).2 (by decide)).2.2.1⟩

/-! ## String pool (src/string_pool.cpp) -/

/- State of `empool` (src/string_pool.cpp lines 98-148): `keys` models the
   concurrent map from content hash to the interned block (most recent entry
   first); `arena` models the bump-allocated blocks of `pool::empool`
   (lines 56-77), slot i holding the stored `(hash, bytes)` prefix.  The hash
   function `orc::murmur3_64` lives in hash.hpp, which is not among the
   presented sources; it is a parameter `hf` throughout. -/
structure pool_state where
  keys : List (Nat × Nat)
  arena : List (Nat × String)
deriving DecidableEq

/- The double-checked lookup `find_key` (string_pool.cpp lines 109-119). -/
def find_key (h : Nat) (keys : List (Nat × Nat)) : Option Nat :=
  (keys.find? (fun e => e.1 == h)).map (fun e => e.2)

/- `empool` (string_pool.cpp lines 98-148): the empty string yields the null
   handle; a hash hit returns the existing block; otherwise `pool::empool`
   writes a fresh `(hash, bytes)` block and the key map is extended.  A
   `pool_string` handle is the arena slot of its block, `none` for the null
   handle. -/
def empool (hf : String → Nat) (src : String) (σ : pool_state) :
    Option Nat × pool_state :=
  if src = "" then (none, σ)
  else
    match find_key (hf src) σ.keys with
    | some slot => (some slot, σ)
    | none =>
      (some σ.arena.length,
        ⟨(hf src, σ.arena.length) :: σ.keys, σ.arena ++ [(hf src, src)]⟩)

/- `pool_string::get_hash` reads the stored hash prefix of the block; the
   null handle hashes to 0 (spec section 3: the empty string is the null
   handle). -/
def handle_hash (σ : pool_state) : Option Nat → Nat
  | none => 0
  | some i => (σ.arena[i]?.map Prod.fst).getD 0

/- The bytes stored in a handle's block. -/
def slot_content (σ : pool_state) (p : Option Nat) : Option String :=
  p.bind fun i => σ.arena[i]?.map Prod.snd

def pool_state.empty : pool_state := ⟨[], []⟩

def internAll (hf : String → Nat) (l : List String) : pool_state :=
  l.foldl (fun σ s => (empool hf s σ).2) pool_state.empty

/- Invariant of every reachable pool state: each key entry is the one its hash
   looks up and points at a live block storing that hash and a non-empty
   content from `A` hashing to it; every block is registered under its stored
   hash. -/
def pool_wf (hf : String → Nat) (A : List String) (σ : pool_state) : Prop :=
  (∀ e ∈ σ.keys, find_key e.1 σ.keys = some e.2 ∧
    ∃ c, σ.arena[e.2]? = some (e.1, c) ∧ hf c = e.1 ∧ c ≠ "" ∧ c ∈ A) ∧
  (∀ i e, σ.arena[i]? = some e → find_key e.1 σ.keys = some i)

theorem pool_wf_empty (hf : String → Nat) (A : List String) :
    pool_wf hf A pool_state.empty := by
  constructor
  · intro e he
    simp [pool_state.empty] at he
  · intro i e h
    simp [pool_state.empty] at h

theorem empool_hit {hf : String → Nat} {s : String} {σ : pool_state}
    {slot : Nat} (hs : s ≠ "") (h : find_key (hf s) σ.keys = some slot) :
    empool hf s σ = (some slot, σ) := by
  simp [empool, hs, h]

theorem empool_miss {hf : String → Nat} {s : String} {σ : pool_state}
    (hs : s ≠ "") (h : find_key (hf s) σ.keys = none) :
    empool hf s σ =
      (some σ.arena.length,
        ⟨(hf s, σ.arena.length) :: σ.keys, σ.arena ++ [(hf s, s)]⟩) := by
  simp [empool, hs, h]

theorem find_key_cons_self (h n : Nat) (keys : List (Nat × Nat)) :
    find_key h ((h, n) :: keys) = some n := by
  simp [find_key]

theorem find_key_cons_ne {h k : Nat} (hne : k ≠ h) (n : Nat)
    (keys : List (Nat × Nat)) :
    find_key h ((k, n) :: keys) = find_key h keys := by
  simp [find_key, List.find?_cons_of_neg, hne]

theorem pool_wf_empool {hf : String → Nat} {A : List String} {σ : pool_state}
    (hwf : pool_wf hf A σ) (s : String) (hA : s ≠ "" → s ∈ A) :
    pool_wf hf A (empool hf s σ).2 := by
  by_cases hs : s = ""
  · simpa [empool, hs] using hwf
  · cases hfk : find_key (hf s) σ.keys with
    | some slot => rw [empool_hit hs hfk]; exact hwf
    | none =>
      rw [empool_miss hs hfk]
      constructor
      · intro e he
        rcases List.mem_cons.mp he with rfl | he'
        · exact ⟨find_key_cons_self _ _ _,
            s, List.getElem?_concat_length σ.arena (hf s, s), rfl, hs, hA hs⟩
        · obtain ⟨hfind, c, hc, hhc, hcne, hcA⟩ := hwf.1 e he'
          have hne : hf s ≠ e.1 := by
            intro hcontra
            rw [← hcontra] at hfind
            rw [hfind] at hfk
            cases hfk
          have hlt : e.2 < σ.arena.length :=
            (List.getElem?_eq_some_iff.mp hc).1
          refine ⟨?_, c, ?_, hhc, hcne, hcA⟩
          · rw [find_key_cons_ne hne]
            exact hfind
          · show (σ.arena ++ [(hf s, s)])[e.2]? = some (e.1, c)
            rw [List.getElem?_append_left hlt]
            exact hc
      · intro i e hie
        by_cases hlt : i < σ.arena.length
        · rw [show ((⟨(hf s, σ.arena.length) :: σ.keys,
              σ.arena ++ [(hf s, s)]⟩ : pool_state)).arena =
              σ.arena ++ [(hf s, s)] from rfl,
            List.getElem?_append_left hlt] at hie
          have hold := hwf.2 i e hie
          have hne : hf s ≠ e.1 := by
            intro hcontra
            rw [← hcontra] at hold
            rw [hold] at hfk
            cases hfk
          rw [find_key_cons_ne hne]
          exact hold
        · have hge : σ.arena.length ≤ i := not_lt.mp hlt
          rcases eq_or_lt_of_le hge with heq | hgt
          · rw [show ((⟨(hf s, σ.arena.length) :: σ.keys,
                σ.arena ++ [(hf s, s)]⟩ : pool_state)).arena =
                σ.arena ++ [(hf s, s)] from rfl, ← heq,
              List.getElem?_concat_length] at hie
            cases hie
            rw [← heq]
            exact find_key_cons_self _ _ _
          · rw [show ((⟨(hf s, σ.arena.length) :: σ.keys,
                σ.arena ++ [(hf s, s)]⟩ : pool_state)).arena =
                σ.arena ++ [(hf s, s)] from rfl,
              List.getElem?_len_le (by simp; omega)] at hie
            cases hie

theorem pool_wf_foldl {hf : String → Nat} {A : List String} :
    ∀ (l : List String) (σ : pool_state), pool_wf hf A σ →
      (∀ x ∈ l, x ∈ A) →
      pool_wf hf A (l.foldl (fun σ s => (empool hf s σ).2) σ) := by
  intro l
  induction l with
  | nil => intro σ hwf _; exact hwf
  | cons x xs ih =>
    intro σ hwf hsub
    rw [List.foldl_cons]
    exact ih _ (pool_wf_empool hwf x (fun _ => hsub x (List.mem_cons_self x _)))
      (fun y hy => hsub y (List.mem_cons_of_mem x hy))

theorem pool_wf_internAll (hf : String → Nat) (A : List String)
    (l : List String) (hsub : ∀ x ∈ l, x ∈ A) :
    pool_wf hf A (internAll hf l) :=
  pool_wf_foldl l pool_state.empty (pool_wf_empty hf A) hsub

theorem empool_idem (hf : String → Nat) (s : String) (σ : pool_state) :
    empool hf s ((empool hf s σ).2) = empool hf s σ := by
  by_cases hs : s = ""
  · simp [empool, hs]
  · cases hfk : find_key (hf s) σ.keys with
    | some slot => rw [empool_hit hs hfk, empool_hit hs hfk]
    | none =>
      rw [empool_miss hs hfk]
      exact empool_hit hs (find_key_cons_self _ _ _)

theorem empool_arena_mono (hf : String → Nat) (s : String) (σ : pool_state)
    {i : Nat} {e : Nat × String} (h : σ.arena[i]? = some e) :
    (empool hf s σ).2.arena[i]? = some e := by
  by_cases hs : s = ""
  · simpa [empool, hs] using h
  · cases hfk : find_key (hf s) σ.keys with
    | some slot => rw [empool_hit hs hfk]; exact h
    | none =>
      rw [empool_miss hs hfk]
      show (σ.arena ++ [(hf s, s)])[i]? = some e
      rw [List.getElem?_append_left (List.getElem?_eq_some_iff.mp h).1]
      exact h

theorem empool_content {hf : String → Nat} {A : List String} {σ : pool_state}
    (hwf : pool_wf hf A σ)
    (hinj : ∀ a ∈ A, ∀ b ∈ A, hf a = hf b → a = b)
    {s : String} (hs : s ≠ "") (hA : s ∈ A) :
    ∃ i, (empool hf s σ).1 = some i ∧
      (empool hf s σ).2.arena[i]? = some (hf s, s) := by
  cases hfk : find_key (hf s) σ.keys with
  | some slot =>
    rw [empool_hit hs hfk]
    obtain ⟨e, hfe, hmap⟩ : ∃ e, σ.keys.find? (fun e => e.1 == hf s) = some e ∧
        e.2 = slot := by
      unfold find_key at hfk
      cases hfind : σ.keys.find? (fun e => e.1 == hf s) with
      | none => rw [hfind] at hfk; cases hfk
      | some e => rw [hfind] at hfk; exact ⟨e, rfl, by simpa using hfk⟩
    have hmem := List.mem_of_find?_eq_some hfe
    have hpred : e.1 = hf s := by
      have := List.find?_some hfe
      simpa using this
    obtain ⟨-, c, hc, hhc, -, hcA⟩ := hwf.1 e hmem
    have hcs : c = s := hinj c hcA s hA (by rw [hhc, hpred])
    refine ⟨slot, rfl, ?_⟩
    rw [← hmap, hc, hpred, hcs]
  | none =>
    rw [empool_miss hs hfk]
    exact ⟨σ.arena.length, rfl, List.getElem?_concat_length _ _⟩

theorem arena_hash_inj {hf : String → Nat} {A : List String} {σ : pool_state}
    (hwf : pool_wf hf A σ) {i j : Nat} {e₁ e₂ : Nat × String}
    (h₁ : σ.arena[i]? = some e₁) (h₂ : σ.arena[j]? = some e₂)
    (hh : e₁.1 = e₂.1) : i = j := by
  have k₁ := hwf.2 i e₁ h₁
  have k₂ := hwf.2 j e₂ h₂
  rw [hh] at k₁
  rw [k₁] at k₂
  exact Option.some_inj.mp k₂

/-- C3: over any reachable pool state (obtained by interning the list `l`) and
with the content hash injective on the strings involved: empool is idempotent
— re-interning s returns the same handle and the very same pool state, so the
second call allocates no new arena block and `empool(s).hash()` is stable; two
handles returned by empool carry equal stored hashes (the handle comparison)
iff they are the same arena slot; each handle's block stores exactly its own
content, and `empool(s)` and `empool(t)` coincide iff s = t — one block per
unique interned content. -/
theorem C3_empool_spec (hf : String → Nat) (l : List String) (s t : String)
    (p q : Option Nat) (σ₁ σ₂ : pool_state)
    (hs : s ≠ "") (ht : t ≠ "")
    (hinj : ∀ a ∈ s :: t :: l, ∀ b ∈ s :: t :: l, hf a = hf b → a = b)
    (h1 : empool hf s (internAll hf l) = (p, σ₁))
    (h2 : empool hf t σ₁ = (q, σ₂)) :
    empool hf s σ₁ = (p, σ₁) ∧
    (handle_hash σ₂ p = handle_hash σ₂ q ↔ p = q) ∧
    slot_content σ₂ p = some s ∧
    slot_content σ₂ q = some t ∧
    (p = q ↔ s = t) := by
  have hwf₀ : pool_wf hf (s :: t :: l) (internAll hf l) :=
    pool_wf_internAll hf _ l
      (fun x hx => List.mem_cons_of_mem s (List.mem_cons_of_mem t hx))
  have hp : (empool hf s (internAll hf l)).1 = p := by rw [h1]
  have hσ : (empool hf s (internAll hf l)).2 = σ₁ := by rw [h1]
  have hq : (empool hf t σ₁).1 = q := by rw [h2]
  have hσ₂ : (empool hf t σ₁).2 = σ₂ := by rw [h2]
  have hwf₁ : pool_wf hf (s :: t :: l) σ₁ := by
    have := pool_wf_empool hwf₀ s (fun _ => List.mem_cons_self s _)
    rw [hσ] at this
    exact this
  have hwf₂ : pool_wf hf (s :: t :: l) σ₂ := by
    have := pool_wf_empool hwf₁ t
      (fun _ => List.mem_cons_of_mem s (List.mem_cons_self t _))
    rw [hσ₂] at this
    exact this
  have hidem : empool hf s σ₁ = (p, σ₁) := by
    have := empool_idem hf s (internAll hf l)
    rw [hσ, h1] at this
    exact this
  obtain ⟨i, hi1, hi2⟩ := empool_content hwf₀ hinj hs (List.mem_cons_self s _)
  rw [hp] at hi1
  rw [hσ] at hi2
  have hi2' : σ₂.arena[i]? = some (hf s, s) := by
    have := empool_arena_mono hf t σ₁ hi2
    rw [hσ₂] at this
    exact this
  obtain ⟨j, hj1, hj2⟩ := empool_content hwf₁ hinj ht
    (List.mem_cons_of_mem s (List.mem_cons_self t _))
  rw [hq] at hj1
  rw [hσ₂] at hj2
  have hhp : handle_hash σ₂ p = hf s := by
    rw [hi1]
    simp [handle_hash, hi2']
  have hhq : handle_hash σ₂ q = hf t := by
    rw [hj1]
    simp [handle_hash, hj2]
  have hcp : slot_content σ₂ p = some s := by
    rw [hi1]
    simp [slot_content, hi2']
  have hcq : slot_content σ₂ q = some t := by
    rw [hj1]
    simp [slot_content, hj2]
  refine ⟨hidem, ?_, hcp, hcq, ?_⟩
  · constructor
    · intro hh
      rw [hhp, hhq] at hh
      have hij : i = j := arena_hash_inj hwf₂ hi2' hj2 hh
      rw [hi1, hj1, hij]
    · intro hpq
      rw [hpq]
  · constructor
    · intro hpq
      rw [hi1, hj1] at hpq
      have hij : i = j := Option.some_inj.mp hpq
      rw [hij] at hi2'
      rw [hi2'] at hj2
      exact ((Prod.mk.injEq _ _ _ _).mp (Option.some_inj.mp hj2)).2
    · intro hst
      subst hst
      have hcomb := hidem.symm.trans h2
      exact ((Prod.mk.injEq _ _ _ _).mp hcomb).1

/-- C3 witness: the theorem evaluated over the hash `"a" ↦ 1, _ ↦ 2`, an empty
prior pool, s = "a", t = "b". -/
theorem C3_empool_spec_witness :
    empool (fun x => if x = "a" then 1 else 2) "a"
        ⟨[(1, 0)], [(1, "a")]⟩ = (some 0, ⟨[(1, 0)], [(1, "a")]⟩) ∧
    (handle_hash ⟨[(2, 1), (1, 0)], [(1, "a"), (2, "b")]⟩ (some 0) =
        handle_hash ⟨[(2, 1), (1, 0)], [(1, "a"), (2, "b")]⟩ (some 1) ↔
      (some 0 : Option Nat) = some 1) ∧
    slot_content ⟨[(2, 1), (1, 0)], [(1, "a"), (2, "b")]⟩ (some 0) =
      some "a" ∧
    slot_content ⟨[(2, 1), (1, 0)], [(1, "a"), (2, "b")]⟩ (some 1) =
      some "b" ∧
    ((some 0 : Option Nat) = some 1 ↔ "a" = "b") :=
  C3_empool_spec (fun x => if x = "a" then 1 else 2) [] "a" "b"
    (some 0) (some 1) ⟨[(1, 0)], [(1, "a")]⟩
    ⟨[(2, 1), (1, 0)], [(1, "a"), (2, "b")]⟩
    (by decide) (by decide) (by decide) (by decide) (by decide)

/-! ## LEB128 decoding (src/parse_file.cpp lines 102-140) -/

/- `uleb128` (lines 102-114) over the reader's byte stream, modelled as a
   list; the result is the decoded uint32 and the number of bytes consumed
   (`none` when the stream ends inside a group, where the C++ reader would
   run out of its window).  `result |= (c & 0x7f) << shift` on the uint32_t
   accumulator is `(acc ||| ((c % 128) <<< shift)) % 2 ^ 32`; per the source
   comment, the whole OR is skipped once shift ≥ 32 while bytes continue to
   be consumed. -/
def uleb128Core : List Nat → Nat → Nat → Option (Nat × Nat)
  | [], _, _ => none
  | c :: rest, shift, acc =>
    let acc2 := if shift < 32 then (acc ||| ((c % 128) <<< shift)) % 2 ^ 32
      else acc
    if c < 128 then some (acc2, 1)
    else
      match uleb128Core rest (shift + 7) acc2 with
      | some (v, n) => some (v, n + 1)
      | none => none

def uleb128 (bs : List Nat) : Option (Nat × Nat) := uleb128Core bs 0 0

/- Two's-complement reading of a 32-bit pattern, as the int32_t result. -/
def toInt32 (p : Nat) : Int :=
  if p < 2 ^ 31 then (p : Int) else (p : Int) - 2 ^ 32

/- `sleb128` (lines 118-140).  The pattern accumulates as in the unsigned
   case, but `result |= (c & 0x7f) << shift` here has no shift guard: once
   shift reaches 32 the int shift is undefined behaviour, and the code that
   mainstream compilers emit for a variable 32-bit shift (x86 shl r32, ARM64
   lslv w) masks the shift count mod 32 — so the model shifts by
   `shift % 32` and truncates the OR to 32 bits.  After the final group
   (bit 7 clear), `sign = c & 0x40`; if sign is set and the accumulated shift
   is below 32, `result |= -(1 << shift)` ORs in the mask 2^32 - 2^shift.
   The pattern is returned as a two's-complement int32. -/
def sleb128Core : List Nat → Nat → Nat → Option (Int × Nat)
  | [], _, _ => none
  | c :: rest, shift, acc =>
    let acc2 := (acc ||| ((c % 128) <<< (shift % 32))) % 2 ^ 32
    if c < 128 then
      let final := if 64 ≤ c % 128 ∧ shift + 7 < 32 then
          (acc2 ||| (2 ^ 32 - 2 ^ (shift + 7))) % 2 ^ 32
        else acc2
      some (toInt32 final, 1)
    else
      match sleb128Core rest (shift + 7) acc2 with
      | some (v, n) => some (v, n + 1)
      | none => none

def sleb128 (bs : List Nat) : Option (Int × Nat) := sleb128Core bs 0 0

/- A structurally valid LEB128 encoding: every group byte but the last has
   the continuation bit set, the last has it clear, and all are bytes. -/
def lebWF : List Nat → Bool
  | [] => false
  | [c] => decide (c < 128)
  | c :: rest => decide (128 ≤ c) && decide (c < 256) && lebWF rest

/- The unsigned value of the 7-bit groups, little-endian, with no width
   truncation. -/
def ulebVal : List Nat → Nat
  | [] => 0
  | c :: rest => c % 128 + 128 * ulebVal rest

/- The sixth bit (0x40) of the last group: the SLEB128 sign. -/
def slebSign : List Nat → Bool
  | [] => false
  | [c] => decide (64 ≤ c % 128)
  | _ :: rest => slebSign rest

/- The signed value an SLEB128 encoding denotes: the group value
   sign-extended from the top of the last group. -/
def slebVal (bs : List Nat) : Int :=
  (ulebVal bs : Int) -
    (if slebSign bs then (2 : Int) ^ (7 * bs.length) else 0)

theorem lor_mul_two_pow {a m s : Nat} (h : a < 2 ^ s) :
    a ||| (m * 2 ^ s) = a + m * 2 ^ s := by
  calc a ||| (m * 2 ^ s) = (2 ^ s * m) ||| a := by
        rw [Nat.lor_comm, Nat.mul_comm]
    _ = 2 ^ s * m + a := (Nat.mul_add_lt_is_or h m).symm
    _ = a + m * 2 ^ s := by ring

theorem lor_shiftLeft_eq_add {a m s : Nat} (h : a < 2 ^ s) :
    a ||| (m <<< s) = a + m * 2 ^ s := by
  rw [Nat.shiftLeft_eq]
  exact lor_mul_two_pow h

theorem ulebVal_lt : ∀ bs : List Nat, ulebVal bs < 2 ^ (7 * bs.length) := by
  intro bs
  induction bs with
  | nil => simp [ulebVal]
  | cons c cs ih =>
    have h1 : c % 128 < 128 := Nat.mod_lt _ (by norm_num)
    have h2 : 2 ^ (7 * (c :: cs).length) = 128 * 2 ^ (7 * cs.length) := by
      have : 7 * (c :: cs).length = 7 + 7 * cs.length := by
        simp [List.length_cons]; ring
      rw [this, pow_add]
      norm_num
    rw [h2]
    simp only [ulebVal]
    omega

/- The accumulator step shared by both decoders: ORing the next group into a
   pattern whose set bits lie below the shift equals adding it, with the bits
   at and above 2^32 discarded. -/
theorem accStepEq {k acc : Nat} (g : Nat) (hacc : acc < 2 ^ min (7 * k) 32) :
    (acc ||| (g <<< (7 * k))) % 2 ^ 32 = (acc + g * 2 ^ (7 * k)) % 2 ^ 32 := by
  have hle : 2 ^ min (7 * k) 32 ≤ 2 ^ (7 * k) :=
    Nat.pow_le_pow_right (by norm_num) (Nat.min_le_left _ _)
  rw [lor_shiftLeft_eq_add (lt_of_lt_of_le hacc hle)]

/- When the shift has passed 32 the unsigned decoder skips the OR; the
   skipped group would have contributed a multiple of 2^32 anyway. -/
theorem accStepHigh {k acc : Nat} (g : Nat) (hk : ¬7 * k < 32)
    (hacc : acc < 2 ^ min (7 * k) 32) :
    acc = (acc + g * 2 ^ (7 * k)) % 2 ^ 32 := by
  have h32 : min (7 * k) 32 = 32 := by omega
  rw [h32] at hacc
  have hsplit : 2 ^ (7 * k) = 2 ^ (7 * k - 32) * 2 ^ 32 := by
    rw [← pow_add]
    congr 1
    omega
  rw [hsplit, ← Nat.mul_assoc, Nat.add_mul_mod_self_right,
    Nat.mod_eq_of_lt hacc]

theorem accBound {k acc : Nat} (g : Nat) (hg : g < 128)
    (hacc : acc < 2 ^ min (7 * k) 32) :
    (acc + g * 2 ^ (7 * k)) % 2 ^ 32 < 2 ^ min (7 * (k + 1)) 32 := by
  by_cases hk : k + 1 ≤ 4
  · have hmin1 : min (7 * k) 32 = 7 * k := by omega
    have hmin2 : min (7 * (k + 1)) 32 = 7 * (k + 1) := by omega
    rw [hmin1] at hacc
    rw [hmin2]
    have hsum : acc + g * 2 ^ (7 * k) < 2 ^ (7 * (k + 1)) := by
      have hA : g * 2 ^ (7 * k) ≤ 127 * 2 ^ (7 * k) :=
        Nat.mul_le_mul_right _ (by omega)
      have hlt : acc + g * 2 ^ (7 * k) < 2 ^ (7 * k) + 127 * 2 ^ (7 * k) :=
        add_lt_add_of_lt_of_le hacc hA
      have h2 : 2 ^ (7 * (k + 1)) = 2 ^ (7 * k) + 127 * 2 ^ (7 * k) := by
        have h3 : 7 * (k + 1) = 7 + 7 * k := by ring
        rw [h3, pow_add]
        ring
      rw [h2]
      exact hlt
    calc (acc + g * 2 ^ (7 * k)) % 2 ^ 32 ≤ acc + g * 2 ^ (7 * k) :=
          Nat.mod_le _ _
      _ < 2 ^ (7 * (k + 1)) := hsum
  · have hmin2 : min (7 * (k + 1)) 32 = 32 := by omega
    rw [hmin2]
    exact Nat.mod_lt _ (by norm_num)

theorem uleb128Core_cons_stop {c : Nat} (hc : c < 128) (rest : List Nat)
    (shift acc : Nat) :
    uleb128Core (c :: rest) shift acc =
      some (if shift < 32 then (acc ||| ((c % 128) <<< shift)) % 2 ^ 32
        else acc, 1) := by
  simp [uleb128Core, hc]

theorem uleb128Core_cons_go {c : Nat} (hc : ¬c < 128) (rest : List Nat)
    (shift acc : Nat) :
    uleb128Core (c :: rest) shift acc =
      match uleb128Core rest (shift + 7)
          (if shift < 32 then (acc ||| ((c % 128) <<< shift)) % 2 ^ 32
            else acc) with
      | some (v, n) => some (v, n + 1)
      | none => none := by
  simp [uleb128Core, hc]

theorem uleb128Core_spec : ∀ bs : List Nat, lebWF bs = true →
    ∀ (rest : List Nat) (k acc : Nat), acc < 2 ^ min (7 * k) 32 →
    uleb128Core (bs ++ rest) (7 * k) acc =
      some ((acc + ulebVal bs * 2 ^ (7 * k)) % 2 ^ 32, bs.length) := by
  intro bs
  induction bs with
  | nil => intro hwf; simp [lebWF] at hwf
  | cons c cs ih =>
    intro hwf rest k acc hacc
    have hstep : (if 7 * k < 32 then
          (acc ||| ((c % 128) <<< (7 * k))) % 2 ^ 32 else acc) =
        (acc + (c % 128) * 2 ^ (7 * k)) % 2 ^ 32 := by
      by_cases hk : 7 * k < 32
      · rw [if_pos hk]
        exact accStepEq _ hacc
      · rw [if_neg hk]
        exact accStepHigh _ hk hacc
    cases cs with
    | nil =>
      have hc : c < 128 := by simpa [lebWF] using hwf
      rw [List.cons_append, List.nil_append, uleb128Core_cons_stop hc, hstep]
      have hv : ulebVal [c] = c % 128 := by simp [ulebVal]
      rw [show ([c] : List Nat).length = 1 from rfl, hv]
    | cons c2 cs2 =>
      have hw : (128 ≤ c ∧ c < 256) ∧ lebWF (c2 :: cs2) = true := by
        simpa [lebWF] using hwf
      have hc : ¬c < 128 := by
        have := hw.1.1
        omega
      have h7 : 7 * k + 7 = 7 * (k + 1) := by ring
      have hval : (acc + ulebVal (c :: c2 :: cs2) * 2 ^ (7 * k)) % 2 ^ 32 =
          ((acc + (c % 128) * 2 ^ (7 * k)) % 2 ^ 32 +
            ulebVal (c2 :: cs2) * 2 ^ (7 * (k + 1))) % 2 ^ 32 := by
        rw [Nat.mod_add_mod]
        congr 1
        have h2 : 2 ^ (7 * (k + 1)) = 128 * 2 ^ (7 * k) := by
          have h3 : 7 * (k + 1) = 7 + 7 * k := by ring
          rw [h3, pow_add]
          norm_num
        simp only [ulebVal]
        rw [h2]
        ring
      rw [List.cons_append, uleb128Core_cons_go hc, hstep, h7,
        ih hw.2 rest (k + 1) _
          (accBound (c % 128) (Nat.mod_lt _ (by norm_num)) hacc), hval]
      rfl

theorem sleb128Core_cons_stop {c : Nat} (hc : c < 128) (rest : List Nat)
    (shift acc : Nat) :
    sleb128Core (c :: rest) shift acc =
      some (toInt32 (if 64 ≤ c % 128 ∧ shift + 7 < 32 then
          (((acc ||| ((c % 128) <<< (shift % 32))) % 2 ^ 32) |||
            (2 ^ 32 - 2 ^ (shift + 7))) % 2 ^ 32
        else (acc ||| ((c % 128) <<< (shift % 32))) % 2 ^ 32), 1) := by
  simp [sleb128Core, hc]

theorem sleb128Core_cons_go {c : Nat} (hc : ¬c < 128) (rest : List Nat)
    (shift acc : Nat) :
    sleb128Core (c :: rest) shift acc =
      match sleb128Core rest (shift + 7)
          ((acc ||| ((c % 128) <<< (shift % 32))) % 2 ^ 32) with
      | some (v, n) => some (v, n + 1)
      | none => none := by
  simp [sleb128Core, hc]

/- The 32-bit pattern the signed decoder ends with: the truncated group sum,
   sign-extension mask OR-ed in when the sign bit is set and the total shift
   stayed below 32. -/
def slebFinish (sum shift2 : Nat) (sign : Bool) : Nat :=
  if sign = true ∧ shift2 < 32 then
    ((sum % 2 ^ 32) ||| (2 ^ 32 - 2 ^ shift2)) % 2 ^ 32
  else sum % 2 ^ 32

theorem slebFinish_congr {s1 s2 : Nat} (h : s1 % 2 ^ 32 = s2 % 2 ^ 32)
    (shift2 : Nat) (sign : Bool) :
    slebFinish s1 shift2 sign = slebFinish s2 shift2 sign := by
  unfold slebFinish
  rw [h]

theorem sleb128Core_spec : ∀ bs : List Nat, lebWF bs = true →
    ∀ (rest : List Nat) (k acc : Nat), k + bs.length ≤ 5 →
    acc < 2 ^ (7 * k) →
    sleb128Core (bs ++ rest) (7 * k) acc =
      some (toInt32 (slebFinish (acc + ulebVal bs * 2 ^ (7 * k))
        (7 * (k + bs.length)) (slebSign bs)), bs.length) := by
  intro bs
  induction bs with
  | nil => intro hwf; simp [lebWF] at hwf
  | cons c cs ih =>
    intro hwf rest k acc hlen hacc
    have hk32 : 7 * k % 32 = 7 * k := Nat.mod_eq_of_lt (by
      simp only [List.length_cons] at hlen
      omega)
    have hstep : (acc ||| ((c % 128) <<< (7 * k % 32))) % 2 ^ 32 =
        (acc + (c % 128) * 2 ^ (7 * k)) % 2 ^ 32 := by
      rw [hk32, lor_shiftLeft_eq_add hacc]
    cases cs with
    | nil =>
      have hc : c < 128 := by simpa [lebWF] using hwf
      rw [List.cons_append, List.nil_append, sleb128Core_cons_stop hc, hstep]
      have h7 : 7 * k + 7 = 7 * (k + 1) := by ring
      have hsg : slebSign [c] = decide (64 ≤ c % 128) := rfl
      have hv : ulebVal [c] = c % 128 := by simp [ulebVal]
      rw [show ([c] : List Nat).length = 1 from rfl, hv, h7, hsg]
      by_cases hs6 : 64 ≤ c % 128 <;> by_cases h32 : 7 * (k + 1) < 32 <;>
        simp [slebFinish, hs6, h32]
    | cons c2 cs2 =>
      have hw : (128 ≤ c ∧ c < 256) ∧ lebWF (c2 :: cs2) = true := by
        simpa [lebWF] using hwf
      have hc : ¬c < 128 := by
        have := hw.1.1
        omega
      have h7 : 7 * k + 7 = 7 * (k + 1) := by ring
      have hfin : slebFinish
            (acc + ulebVal (c :: c2 :: cs2) * 2 ^ (7 * k))
            (7 * (k + (c :: c2 :: cs2).length)) (slebSign (c :: c2 :: cs2)) =
          slebFinish
            ((acc + (c % 128) * 2 ^ (7 * k)) % 2 ^ 32 +
              ulebVal (c2 :: cs2) * 2 ^ (7 * (k + 1)))
            (7 * ((k + 1) + (c2 :: cs2).length)) (slebSign (c2 :: cs2)) := by
        have hsh : 7 * (k + (c :: c2 :: cs2).length) =
            7 * ((k + 1) + (c2 :: cs2).length) := by
          simp [List.length_cons]
          ring
        have hsg : slebSign (c :: c2 :: cs2) = slebSign (c2 :: cs2) := rfl
        rw [hsh, hsg]
        refine slebFinish_congr ?_ _ _
        rw [Nat.mod_add_mod]
        congr 1
        have h2 : 2 ^ (7 * (k + 1)) = 128 * 2 ^ (7 * k) := by
          have h3 : 7 * (k + 1) = 7 + 7 * k := by ring
          rw [h3, pow_add]
          norm_num
        simp only [ulebVal]
        rw [h2]
        ring
      have hlen2 : (k + 1) + (c2 :: cs2).length ≤ 5 := by
        simp only [List.length_cons] at hlen ⊢
        omega
      have hsum : acc + (c % 128) * 2 ^ (7 * k) < 2 ^ (7 * (k + 1)) := by
        have hA : (c % 128) * 2 ^ (7 * k) ≤ 127 * 2 ^ (7 * k) :=
          Nat.mul_le_mul_right _ (by omega)
        have hlt : acc + (c % 128) * 2 ^ (7 * k) <
            2 ^ (7 * k) + 127 * 2 ^ (7 * k) := add_lt_add_of_lt_of_le hacc hA
        have h2 : 2 ^ (7 * (k + 1)) = 2 ^ (7 * k) + 127 * 2 ^ (7 * k) := by
          have h3 : 7 * (k + 1) = 7 + 7 * k := by ring
          rw [h3, pow_add]
          ring
        rw [h2]
        exact hlt
      have hbound : (acc + (c % 128) * 2 ^ (7 * k)) % 2 ^ 32 <
          2 ^ (7 * (k + 1)) := lt_of_le_of_lt (Nat.mod_le _ _) hsum
      rw [List.cons_append, sleb128Core_cons_go hc, hstep, h7,
        ih hw.2 rest (k + 1) _ hlen2 hbound, hfin]
      rfl

theorem toInt32_slebFinish {bs : List Nat} (_hwf : lebWF bs = true)
    (hlo : -(2 ^ 31) ≤ slebVal bs) (hhi : slebVal bs < 2 ^ 31) :
    toInt32 (slebFinish (ulebVal bs) (7 * bs.length) (slebSign bs)) =
      slebVal bs := by
  have hS := ulebVal_lt bs
  cases hsg : slebSign bs with
  | false =>
    have hw : slebVal bs = (ulebVal bs : Int) := by
      simp [slebVal, hsg]
    have hSlt : ulebVal bs < 2 ^ 31 := by
      have h := hhi
      rw [hw] at h
      exact_mod_cast h
    have hfin : slebFinish (ulebVal bs) (7 * bs.length) false = ulebVal bs := by
      simp only [slebFinish,
        if_neg (by simp : ¬(false = true ∧ 7 * bs.length < 32))]
      exact Nat.mod_eq_of_lt (by omega)
    rw [hfin, hw]
    unfold toInt32
    rw [if_pos hSlt]
  | true =>
    have hw : slebVal bs = (ulebVal bs : Int) - 2 ^ (7 * bs.length) := by
      simp [slebVal, hsg]
    by_cases h32 : 7 * bs.length < 32
    · have h1 : (2 : Nat) ^ (7 * bs.length) ≤ 2 ^ 32 :=
        Nat.pow_le_pow_right (by norm_num) (by omega)
      have hmask : 2 ^ 32 - 2 ^ (7 * bs.length) =
          (2 ^ (32 - 7 * bs.length) - 1) * 2 ^ (7 * bs.length) := by
        rw [Nat.sub_mul, one_mul, ← pow_add]
        have h4 : 32 - 7 * bs.length + 7 * bs.length = 32 := by omega
        rw [h4]
      have hor : ulebVal bs ||| (2 ^ 32 - 2 ^ (7 * bs.length)) =
          ulebVal bs + (2 ^ 32 - 2 ^ (7 * bs.length)) := by
        rw [hmask]
        exact lor_mul_two_pow hS
      have hfin : slebFinish (ulebVal bs) (7 * bs.length) true =
          ulebVal bs + (2 ^ 32 - 2 ^ (7 * bs.length)) := by
        unfold slebFinish
        rw [if_pos (⟨rfl, h32⟩ : true = true ∧ 7 * bs.length < 32)]
        have hmod : ulebVal bs % 2 ^ 32 = ulebVal bs :=
          Nat.mod_eq_of_lt (by omega)
        rw [hmod, hor]
        exact Nat.mod_eq_of_lt (by omega)
      rw [hfin, hw]
      have h2 : (2 : Nat) ^ (7 * bs.length) ≤ 2 ^ 31 :=
        Nat.pow_le_pow_right (by norm_num) (by omega)
      have hge : ¬(ulebVal bs + (2 ^ 32 - 2 ^ (7 * bs.length)) < 2 ^ 31) := by
        omega
      unfold toInt32
      rw [if_neg hge, Nat.cast_add, Nat.cast_sub h1]
      push_cast
      ring
    · have hfin : slebFinish (ulebVal bs) (7 * bs.length) true =
          ulebVal bs % 2 ^ 32 := by
        unfold slebFinish
        rw [if_neg (by simp [h32])]
      rw [hfin]
      have hdvd : ((2 : Int) ^ 32) ∣ ((2 : Int) ^ (7 * bs.length)) :=
        pow_dvd_pow 2 (by omega)
      have hcast : ((ulebVal bs % 2 ^ 32 : Nat) : Int) =
          (ulebVal bs : Int) % 2 ^ 32 := by
        push_cast
        ring
      have hmodeq : ((ulebVal bs % 2 ^ 32 : Nat) : Int) =
          slebVal bs % 2 ^ 32 := by
        rw [hcast, hw, Int.sub_emod, Int.emod_eq_zero_of_dvd hdvd, sub_zero,
          Int.emod_emod_of_dvd _ dvd_rfl]
      have hP : (ulebVal bs % 2 ^ 32 : Nat) < 2 ^ 32 :=
        Nat.mod_lt _ (by norm_num)
      unfold toInt32
      split <;> omega

/-- C5 counterexample: the claim fails on long padded signed encodings.  The
6-byte sequence [0x80, 0x80, 0x80, 0x80, 0xF8, 0x7F] is a structurally valid
SLEB128 encoding of -2^31 (group value 0x78·2^28 + 0x7F·2^35, sign-extended
from bit 0x40 of the last group), but its sixth group is consumed at
shift = 35: the source's unguarded `(c & 0x7f) << shift` masks the shift
count mod 32, landing the 0x7F payload at bit 3, and the decoder returns
-2147482632 (pattern 0x800003F8) instead of -2^31. -/
theorem C5_counterexample :
    lebWF [128, 128, 128, 128, 248, 127] = true ∧
    slebVal [128, 128, 128, 128, 248, 127] = -(2 ^ 31) ∧
    sleb128 [128, 128, 128, 128, 248, 127] ≠ some (-(2 ^ 31), 6) ∧
    sleb128 [128, 128, 128, 128, 248, 127] = some (-2147482632, 6) := by
  refine ⟨by decide, by decide, by decide, by decide⟩

/-- C5 (amended): LEB128 decode inverts encode on 32-bit values, with the
signed side restricted to the shift-safe lengths.  For every structurally
valid ULEB128 encoding bs — including padded forms of 5 or more bytes, whose
groups at shift ≥ 32 are consumed but contribute nothing to the 32-bit result
— `uleb128` returns the encoding's group value reduced mod 2^32 (hence v for
every valid encoding of an unsigned 32-bit v) and consumes exactly the
encoding's bytes even with trailing data present.  For every structurally
valid SLEB128 encoding of at most 5 bytes of a signed 32-bit value w,
sign-extended from the sixth bit (0x40) of the last group, `sleb128` returns
w and consumes exactly the encoding's bytes; on 6-byte-or-longer padded
encodings the source's unguarded shift reaches 32 and corrupts the result
(see the counterexample). -/
theorem C5_leb128_roundtrip_amended :
    (∀ (bs rest : List Nat) (v : Nat), lebWF bs = true →
      ulebVal bs % 2 ^ 32 = v →
      uleb128 (bs ++ rest) = some (v, bs.length)) ∧
    (∀ (bs rest : List Nat) (w : Int), lebWF bs = true → bs.length ≤ 5 →
      slebVal bs = w → -(2 ^ 31) ≤ w → w < 2 ^ 31 →
      sleb128 (bs ++ rest) = some (w, bs.length)) := by
  constructor
  · intro bs rest v hwf hv
    have hspec := uleb128Core_spec bs hwf rest 0 0 (by simp)
    rw [show uleb128 (bs ++ rest) = uleb128Core (bs ++ rest) (7 * 0) 0
        from rfl, hspec]
    have hval : (0 + ulebVal bs * 2 ^ (7 * 0)) % 2 ^ 32 = v := by
      simpa using hv
    rw [hval]
  · intro bs rest w hwf hlen5 hw hlo hhi
    have hspec := sleb128Core_spec bs hwf rest 0 0 (by simpa using hlen5)
      (by norm_num)
    rw [show sleb128 (bs ++ rest) = sleb128Core (bs ++ rest) (7 * 0) 0
        from rfl, hspec]
    have harg : (0 : Nat) + ulebVal bs * 2 ^ (7 * 0) = ulebVal bs := by simp
    have hsh : 7 * (0 + bs.length) = 7 * bs.length := by ring
    rw [harg, hsh,
      toInt32_slebFinish hwf (by rw [hw]; exact hlo) (by rw [hw]; exact hhi),
      hw]

/-- C5 witness: the padded two-byte ULEB128 encoding of 1 (0x81 0x00) decodes
to 1 consuming exactly 2 bytes despite trailing data, and the one-byte
SLEB128 encoding 0x7f decodes to -1. -/
theorem C5_leb128_roundtrip_amended_witness :
    uleb128 ([129, 0] ++ [7]) = some (1, 2) ∧
    sleb128 ([127] ++ [7]) = some (-1, 1) :=
  ⟨C5_leb128_roundtrip_amended.1 [129, 0] [7] 1 (by decide) (by decide),
    C5_leb128_roundtrip_amended.2 [127] [7] (-1) (by decide) (by decide)
      (by decide) (by decide) (by decide)⟩

end Orc
